import Mathlib

unseal Rat.add Rat.sub Rat.mul Rat.inv

/-!
Verification of the NextCV post-processing NMS routine
(`src/nextcv/_cpp/src/postprocessing/nms.cpp`) and the pixel inversion
routine (`src/nextcv/_cpp/src/image/invert.cpp`).

The C++ code works on `float`; here real arithmetic is embedded as exact
rationals (`ℚ`).  The one place where IEEE semantics is observable is the
division `inter_area / union_area` when `union_area == 0`: in C++ the
quotient is NaN (when the numerator is also 0) or +Inf (when it is
positive), and the subsequent comparison `iou > threshold` is false for
NaN and true for +Inf.  The Boolean decision `iouExceeds` below encodes
exactly that case split, so no NaN/Inf value ever needs to be represented.

`std::sort` with the comparator `scores(i) > scores(j)` leaves the order
of equal-score indices unspecified; the embedding refines it to the
stable descending order (ties broken by ascending original index), which
is one of the permitted outcomes.
-/

namespace NextCV

open scoped List

/-- An axis-aligned bounding box, one row `(x1, y1, x2, y2)` of the
`bboxes` matrix. -/
structure Box where
  x1 : ℚ
  y1 : ℚ
  x2 : ℚ
  y2 : ℚ
deriving Repr, DecidableEq

/-- `areas(i) = (bboxes(i,2) - bboxes(i,0)) * (bboxes(i,3) - bboxes(i,1))`. -/
def area (b : Box) : ℚ := (b.x2 - b.x1) * (b.y2 - b.y1)

/-- `inter_area = max(0, ix2 - ix1) * max(0, iy2 - iy1)` with
`ix1 = max(x1, x1')`, `ix2 = min(x2, x2')`, and similarly for y. -/
def interArea (a b : Box) : ℚ :=
  max 0 (min a.x2 b.x2 - max a.x1 b.x1) * max 0 (min a.y2 b.y2 - max a.y1 b.y1)

/-- `union_area = areas(idx) + areas(other_idx) - inter_area`. -/
def unionArea (a b : Box) : ℚ := area a + area b - interArea a b

/-- The decision `inter_area / union_area > threshold` of the C++ code,
including the IEEE behaviour at a zero denominator: `0/0 = NaN` compares
false against anything, and `pos/0 = +Inf` compares true against any
finite threshold. -/
def iouExceeds (a b : Box) (t : ℚ) : Bool :=
  if unionArea a b = 0 then
    if interArea a b = 0 then false else true
  else decide (interArea a b / unionArea a b > t)

/-- Row access `bboxes(i, _)`; out-of-range rows give the zero box (the
theorems only use in-range indices). -/
def getBox (boxes : List Box) (i : ℕ) : Box := boxes.getD i ⟨0, 0, 0, 0⟩

/-- Entry access `scores(i)`. -/
def getScore (scores : List ℚ) (i : ℕ) : ℚ := scores.getD i 0

/-- The sort order of the index array: descending score, ties broken by
ascending original index (a stable refinement of the `std::sort`
comparator `scores(i) > scores(j)`). -/
def rankBefore (scores : List ℚ) (i j : ℕ) : Prop :=
  getScore scores j < getScore scores i ∨
    (getScore scores i = getScore scores j ∧ i ≤ j)

instance (scores : List ℚ) : DecidableRel (rankBefore scores) := fun i j => by
  unfold rankBefore
  infer_instance

instance (scores : List ℚ) : IsTotal ℕ (rankBefore scores) where
  total i j := by
    unfold rankBefore
    rcases lt_trichotomy (getScore scores i) (getScore scores j) with h | h | h
    · exact Or.inr (Or.inl h)
    · rcases Nat.le_total i j with hij | hij
      · exact Or.inl (Or.inr ⟨h, hij⟩)
      · exact Or.inr (Or.inr ⟨h.symm, hij⟩)
    · exact Or.inl (Or.inl h)

instance (scores : List ℚ) : IsTrans ℕ (rankBefore scores) where
  trans i j k hij hjk := by
    unfold rankBefore at *
    rcases hij with h1 | ⟨e1, l1⟩
    · rcases hjk with h2 | ⟨e2, l2⟩
      · exact Or.inl (h2.trans h1)
      · exact Or.inl (e2 ▸ h1)
    · rcases hjk with h2 | ⟨e2, l2⟩
      · exact Or.inl (e1 ▸ h2)
      · exact Or.inr ⟨e1.trans e2, l1.trans l2⟩

/-- `indices = iota(0..n-1)` sorted by descending score, `n = scores.size()`. -/
def sortedIndices (scores : List ℚ) : List ℕ :=
  List.insertionSort (rankBefore scores) (List.range scores.length)

/-- The inner `for (j = i+1; ...)` loop: walk the later sorted indices,
skipping already-suppressed ones, and mark those whose IoU with the box
`idx` just kept exceeds the threshold. -/
def innerLoop (boxes : List Box) (t : ℚ) (idx : ℕ) :
    List ℕ → (ℕ → Bool) → (ℕ → Bool)
  | [], sup => sup
  | j :: rest, sup =>
    if sup j then innerLoop boxes t idx rest sup
    else if iouExceeds (getBox boxes idx) (getBox boxes j) t then
      innerLoop boxes t idx rest (fun k => if k = j then true else sup k)
    else innerLoop boxes t idx rest sup

/-- The outer `for (i = 0; ...)` loop: walk the sorted indices, skip the
suppressed ones, keep the rest, and after keeping a box run the inner
suppression pass over the later indices. -/
def outerLoop (boxes : List Box) (t : ℚ) : List ℕ → (ℕ → Bool) → List ℕ
  | [], _ => []
  | idx :: rest, sup =>
    if sup idx then outerLoop boxes t rest sup
    else idx :: outerLoop boxes t rest (innerLoop boxes t idx rest sup)

/-- `nms(bboxes, scores, threshold)`: early-return `{}` when
`bboxes.rows() == 0`, otherwise the greedy suppression walk. -/
def nms (boxes : List Box) (scores : List ℚ) (t : ℚ) : List ℕ :=
  if boxes.length = 0 then []
  else outerLoop boxes t (sortedIndices scores) (fun _ => false)

/-- `invert(pixels)`: each 8-bit pixel `p` is mapped to
`numeric_limits<uint8_t>::max() - p = 255 - p` (the subtraction happens
after integral promotion, so it is exact for `p ≤ 255`). -/
def invert (pixels : List ℕ) : List ℕ := pixels.map (fun p => 255 - p)

/-! ### Geometry lemmas -/

lemma interArea_nonneg (a b : Box) : 0 ≤ interArea a b :=
  mul_nonneg (le_max_left _ _) (le_max_left _ _)

lemma interArea_comm (a b : Box) : interArea a b = interArea b a := by
  unfold interArea
  rw [min_comm a.x2 b.x2, max_comm a.x1 b.x1, min_comm a.y2 b.y2, max_comm a.y1 b.y1]

/-- A positive intersection area is dominated by either box's own area:
a positive clamped overlap forces both boxes to be non-degenerate in both
axes, and the overlap rectangle sits inside each of them. -/
lemma interArea_le_areas (a b : Box) (h : 0 < interArea a b) :
    interArea a b ≤ area a ∧ interArea a b ≤ area b := by
  unfold interArea at *
  set w := min a.x2 b.x2 - max a.x1 b.x1 with hw
  set v := min a.y2 b.y2 - max a.y1 b.y1 with hv
  have hW : 0 < max 0 w := by
    rcases (le_max_left 0 w).lt_or_eq with h' | h'
    · exact h'
    · rw [← h'] at h
      simp at h
  have hV : 0 < max 0 v := by
    rcases (le_max_left 0 v).lt_or_eq with h' | h'
    · exact h'
    · rw [← h'] at h
      simp at h
  have hw0 : 0 < w := by
    rcases lt_max_iff.mp hW with h' | h'
    · exact absurd h' (lt_irrefl 0)
    · exact h'
  have hv0 : 0 < v := by
    rcases lt_max_iff.mp hV with h' | h'
    · exact absurd h' (lt_irrefl 0)
    · exact h'
  rw [max_eq_right hw0.le, max_eq_right hv0.le]
  have hwa : w ≤ a.x2 - a.x1 := sub_le_sub (min_le_left _ _) (le_max_left _ _)
  have hva : v ≤ a.y2 - a.y1 := sub_le_sub (min_le_left _ _) (le_max_left _ _)
  have hwb : w ≤ b.x2 - b.x1 := sub_le_sub (min_le_right _ _) (le_max_right _ _)
  have hvb : v ≤ b.y2 - b.y1 := sub_le_sub (min_le_right _ _) (le_max_right _ _)
  constructor
  · exact mul_le_mul hwa hva hv0.le (hw0.le.trans hwa)
  · exact mul_le_mul hwb hvb hv0.le (hw0.le.trans hwb)

/-- The union area can only vanish when the intersection area vanishes:
the `0/0 = NaN` case is the only degenerate division the code can hit. -/
lemma interArea_eq_zero_of_unionArea_eq_zero (a b : Box) (h : unionArea a b = 0) :
    interArea a b = 0 := by
  rcases (interArea_nonneg a b).lt_or_eq with hpos | h0
  · obtain ⟨ha, hb⟩ := interArea_le_areas a b hpos
    have : 0 < unionArea a b := by
      unfold unionArea
      linarith
    exact absurd h this.ne.symm
  · exact h0.symm

lemma iouExceeds_false_of_unionArea_eq_zero (a b : Box) (t : ℚ)
    (h : unionArea a b = 0) : iouExceeds a b t = false := by
  unfold iouExceeds
  rw [if_pos h, if_pos (interArea_eq_zero_of_unionArea_eq_zero a b h)]

lemma iouExceeds_false_of_interArea_eq_zero (a b : Box) (t : ℚ)
    (hi : interArea a b = 0) (ht : 0 ≤ t) : iouExceeds a b t = false := by
  unfold iouExceeds
  rw [hi]
  split
  · simp
  · simp only [decide_eq_false_iff_not, not_lt, zero_div]
    exact ht

lemma iouExceeds_mono (a b : Box) (t1 t2 : ℚ) (ht : t1 ≤ t2)
    (h : iouExceeds a b t2 = true) : iouExceeds a b t1 = true := by
  unfold iouExceeds at h ⊢
  by_cases hu : unionArea a b = 0
  · rw [if_pos hu] at h ⊢
    by_cases hi : interArea a b = 0
    · rw [if_pos hi] at h
      exact absurd h (by simp)
    · rw [if_neg hi]
  · rw [if_neg hu] at h ⊢
    exact decide_eq_true (lt_of_le_of_lt ht (of_decide_eq_true h))

lemma iouExceeds_false_mono (a b : Box) (t1 t2 : ℚ) (ht : t1 ≤ t2)
    (h : iouExceeds a b t1 = false) : iouExceeds a b t2 = false := by
  cases he : iouExceeds a b t2
  · rfl
  · exact absurd (iouExceeds_mono a b t1 t2 ht he) (by simp [h])

/-! ### Loop lemmas -/

/-- Effect of one inner suppression pass on the flag of index `k`:
`k` ends up suppressed iff it started suppressed or it occurs among the
later indices and its IoU with the kept box exceeds the threshold. -/
lemma innerLoop_apply (boxes : List Box) (t : ℚ) (idx : ℕ) (l : List ℕ) :
    ∀ (sup : ℕ → Bool) (k : ℕ),
      innerLoop boxes t idx l sup k =
        (sup k || (decide (k ∈ l) && iouExceeds (getBox boxes idx) (getBox boxes k) t)) := by
  induction l with
  | nil =>
    intro sup k
    simp [innerLoop]
  | cons j rest ih =>
    intro sup k
    unfold innerLoop
    by_cases h1 : sup j = true
    · rw [if_pos h1, ih]
      by_cases hk : k = j
      · subst hk
        simp [h1]
      · simp [hk, List.mem_cons]
    · rw [if_neg h1]
      by_cases h2 : iouExceeds (getBox boxes idx) (getBox boxes j) t = true
      · rw [if_pos h2, ih]
        by_cases hk : k = j
        · subst hk
          simp [h1, h2, Bool.eq_false_iff.mpr h1, List.mem_cons]
        · simp [hk, List.mem_cons]
      · rw [if_neg h2, ih]
        by_cases hk : k = j
        · subst hk
          simp [Bool.eq_false_iff.mpr h1, Bool.eq_false_iff.mpr h2, List.mem_cons]
        · simp [hk, List.mem_cons]

/-- The kept list is a sublist of the sorted walk order. -/
lemma outerLoop_sublist (boxes : List Box) (t : ℚ) :
    ∀ (l : List ℕ) (sup : ℕ → Bool), outerLoop boxes t l sup <+ l := by
  intro l
  induction l with
  | nil =>
    intro sup
    simp [outerLoop]
  | cons idx rest ih =>
    intro sup
    unfold outerLoop
    by_cases h : sup idx = true
    · rw [if_pos h]
      exact (ih sup).trans (List.sublist_cons_self idx rest)
    · rw [if_neg h]
      exact (ih _).cons₂ idx

/-- A box that gets kept was not suppressed at the moment the walk
reached it; since flags only ever get set, it was also unsuppressed at
every earlier moment. -/
lemma sup_false_of_mem_outerLoop (boxes : List Box) (t : ℚ) :
    ∀ (l : List ℕ) (sup : ℕ → Bool) (k : ℕ),
      k ∈ outerLoop boxes t l sup → sup k = false := by
  intro l
  induction l with
  | nil =>
    intro sup k h
    simp [outerLoop] at h
  | cons idx rest ih =>
    intro sup k hk
    unfold outerLoop at hk
    by_cases h : sup idx = true
    · rw [if_pos h] at hk
      exact ih sup k hk
    · rw [if_neg h] at hk
      rcases List.mem_cons.mp hk with rfl | hk2
      · exact Bool.eq_false_iff.mpr h
      · have h3 := ih _ k hk2
        rw [innerLoop_apply] at h3
        exact (Bool.or_eq_false_iff.mp h3).1

/-- Greedy invariant: along the kept list, no earlier kept box has an
IoU with a later kept box that exceeds the threshold (otherwise the
later box would have been suppressed when the earlier one was kept). -/
lemma outerLoop_pairwise (boxes : List Box) (t : ℚ) :
    ∀ (l : List ℕ) (sup : ℕ → Bool),
      (outerLoop boxes t l sup).Pairwise
        (fun u v => iouExceeds (getBox boxes u) (getBox boxes v) t = false) := by
  intro l
  induction l with
  | nil =>
    intro sup
    simp [outerLoop]
  | cons idx rest ih =>
    intro sup
    unfold outerLoop
    by_cases h : sup idx = true
    · rw [if_pos h]
      exact ih sup
    · rw [if_neg h]
      refine List.Pairwise.cons ?_ (ih _)
      intro v hv
      have hvrest : v ∈ rest :=
        (outerLoop_sublist boxes t rest (innerLoop boxes t idx rest sup)).subset hv
      have hsupv := sup_false_of_mem_outerLoop boxes t rest _ v hv
      rw [innerLoop_apply] at hsupv
      have h2 := (Bool.or_eq_false_iff.mp hsupv).2
      rw [Bool.and_eq_false_iff] at h2
      rcases h2 with h2 | h2
      · simp [hvrest] at h2
      · exact h2

/-- If nothing along the walk is suppressed at the start and no pair of
walked boxes has IoU above the threshold, the walk keeps everything. -/
lemma outerLoop_id_of_no_suppression (boxes : List Box) (t : ℚ) :
    ∀ (l : List ℕ) (sup : ℕ → Bool),
      (∀ j ∈ l, sup j = false) →
      l.Pairwise (fun u v => iouExceeds (getBox boxes u) (getBox boxes v) t = false) →
      outerLoop boxes t l sup = l := by
  intro l
  induction l with
  | nil =>
    intro sup _ _
    simp [outerLoop]
  | cons idx rest ih =>
    intro sup hsup hpw
    have hidx : sup idx = false := hsup idx (List.mem_cons_self idx rest)
    rw [List.pairwise_cons] at hpw
    unfold outerLoop
    rw [if_neg (by simp [hidx])]
    congr 1
    refine ih _ ?_ hpw.2
    intro j hj
    rw [innerLoop_apply]
    simp [hsup j (List.mem_cons_of_mem idx hj), hpw.1 j hj]

/-! ### Facts about the sorted index walk -/

lemma sortedIndices_perm (scores : List ℚ) :
    sortedIndices scores ~ List.range scores.length :=
  List.perm_insertionSort _ _

lemma sortedIndices_sorted (scores : List ℚ) :
    List.Sorted (rankBefore scores) (sortedIndices scores) :=
  List.sorted_insertionSort _ _

lemma nms_sublist_sortedIndices (boxes : List Box) (scores : List ℚ) (t : ℚ) :
    nms boxes scores t <+ sortedIndices scores := by
  unfold nms
  split
  · exact List.nil_sublist _
  · exact outerLoop_sublist _ _ _ _

lemma nms_pairwise_iou (boxes : List Box) (scores : List ℚ) (t : ℚ) :
    (nms boxes scores t).Pairwise
      (fun u v => iouExceeds (getBox boxes u) (getBox boxes v) t = false) := by
  unfold nms
  split
  · simp
  · exact outerLoop_pairwise _ _ _ _

lemma nms_pairwise_rank (boxes : List Box) (scores : List ℚ) (t : ℚ) :
    (nms boxes scores t).Pairwise (rankBefore scores) :=
  (sortedIndices_sorted scores).sublist (nms_sublist_sortedIndices boxes scores t)

lemma nms_nodup (boxes : List Box) (scores : List ℚ) (t : ℚ) :
    (nms boxes scores t).Nodup :=
  (((sortedIndices_perm scores).nodup_iff).mpr (List.nodup_range _)).sublist
    (nms_sublist_sortedIndices boxes scores t)

lemma nms_mem_lt (boxes : List Box) (scores : List ℚ) (t : ℚ) :
    ∀ i ∈ nms boxes scores t, i < scores.length := by
  intro i hi
  have h1 : i ∈ sortedIndices scores :=
    (nms_sublist_sortedIndices boxes scores t).subset hi
  have h2 : i ∈ List.range scores.length := (sortedIndices_perm scores).subset h1
  exact List.mem_range.mp h2

/-! ### Small inputs -/

lemma nms_nil_boxes (scores : List ℚ) (t : ℚ) : nms [] scores t = [] := by
  simp [nms]

lemma nms_nil_scores (boxes : List Box) (t : ℚ) : nms boxes [] t = [] := by
  unfold nms
  split
  · rfl
  · simp [sortedIndices, List.insertionSort, outerLoop]

lemma sortedIndices_single (s : ℚ) : sortedIndices [s] = [0] := rfl

lemma nms_single (b : Box) (s : ℚ) (t : ℚ) : nms [b] [s] t = [0] := by
  unfold nms
  rw [if_neg (by simp), sortedIndices_single]
  simp [outerLoop]

lemma sortedIndices_pair (s1 s2 : ℚ) :
    sortedIndices [s1, s2] = if rankBefore [s1, s2] 0 1 then [0, 1] else [1, 0] := by
  unfold sortedIndices
  have hr : List.range ([s1, s2].length) = [0, 1] := rfl
  rw [hr]
  by_cases h : rankBefore [s1, s2] 0 1
  · simp [List.insertionSort, List.orderedInsert, h]
  · simp [List.insertionSort, List.orderedInsert, h]

lemma nms_pair (b1 b2 : Box) (s1 s2 : ℚ) (t : ℚ) (i j : ℕ)
    (hsort : sortedIndices [s1, s2] = [i, j]) :
    nms [b1, b2] [s1, s2] t =
      if iouExceeds (getBox [b1, b2] i) (getBox [b1, b2] j) t then [i] else [i, j] := by
  unfold nms
  rw [if_neg (by simp), hsort]
  by_cases he : iouExceeds (getBox [b1, b2] i) (getBox [b1, b2] j) t = true
  · rw [if_pos he]
    simp [outerLoop, innerLoop, he]
  · rw [if_neg he]
    simp [outerLoop, innerLoop, Bool.eq_false_iff.mpr he]

lemma nms_length_mono_pair (b1 b2 : Box) (s1 s2 : ℚ) (t1 t2 : ℚ) (ht : t1 ≤ t2) :
    (nms [b1, b2] [s1, s2] t1).length ≤ (nms [b1, b2] [s1, s2] t2).length := by
  have hs := sortedIndices_pair s1 s2
  by_cases h : rankBefore [s1, s2] 0 1
  · rw [if_pos h] at hs
    rw [nms_pair b1 b2 s1 s2 t1 0 1 hs, nms_pair b1 b2 s1 s2 t2 0 1 hs]
    by_cases he2 : iouExceeds (getBox [b1, b2] 0) (getBox [b1, b2] 1) t2 = true
    · rw [if_pos he2, if_pos (iouExceeds_mono _ _ t1 t2 ht he2)]
    · rw [if_neg he2]
      split <;> simp
  · rw [if_neg h] at hs
    rw [nms_pair b1 b2 s1 s2 t1 1 0 hs, nms_pair b1 b2 s1 s2 t2 1 0 hs]
    by_cases he2 : iouExceeds (getBox [b1, b2] 1) (getBox [b1, b2] 0) t2 = true
    · rw [if_pos he2, if_pos (iouExceeds_mono _ _ t1 t2 ht he2)]
    · rw [if_neg he2]
      split <;> simp

lemma nms_length_mono_small (boxes : List Box) (scores : List ℚ)
    (t1 t2 : ℚ) (hlen : boxes.length = scores.length) (hn : scores.length ≤ 2)
    (ht : t1 ≤ t2) :
    (nms boxes scores t1).length ≤ (nms boxes scores t2).length := by
  rcases scores with _ | ⟨s1, _ | ⟨s2, _ | ⟨s3, ss⟩⟩⟩
  · have hb : boxes = [] := List.length_eq_zero.mp (by rw [hlen]; rfl)
    subst hb
    simp [nms_nil_boxes]
  · rcases boxes with _ | ⟨b1, _ | ⟨b2, bs⟩⟩
    · simp at hlen
    · rw [nms_single, nms_single]
    · simp at hlen
  · rcases boxes with _ | ⟨b1, _ | ⟨b2, _ | ⟨b3, bs⟩⟩⟩
    · simp at hlen
    · simp at hlen
    · exact nms_length_mono_pair b1 b2 s1 s2 t1 t2 ht
    · simp at hlen
  · simp at hn

/-! ### Rerunning NMS on its own output -/

lemma getScore_map (scores : List ℚ) (keep : List ℕ) (i : ℕ) (h : i < keep.length) :
    getScore (keep.map (getScore scores)) i = getScore scores keep[i] := by
  unfold getScore
  rw [List.getD_eq_getElem _ _ (by simpa using h), List.getElem_map]

lemma getBox_map (boxes : List Box) (keep : List ℕ) (i : ℕ) (h : i < keep.length) :
    getBox (keep.map (getBox boxes)) i = getBox boxes keep[i] := by
  unfold getBox
  rw [List.getD_eq_getElem _ _ (by simpa using h), List.getElem_map]

/-- Rerunning `nms` on a kept list whose boxes are pairwise below the
original threshold, with scores already in the walk order, keeps every
index: the result is `[0, 1, ..., k-1]`. -/
lemma nms_of_kept (boxes : List Box) (scores : List ℚ) (keep : List ℕ) (t t2 : ℚ)
    (ht : t ≤ t2)
    (hpw : keep.Pairwise (fun u v => iouExceeds (getBox boxes u) (getBox boxes v) t = false))
    (hrank : keep.Pairwise (rankBefore scores)) :
    nms (keep.map (getBox boxes)) (keep.map (getScore scores)) t2 =
      List.range keep.length := by
  by_cases hk : keep = []
  · subst hk
    simp [nms_nil_boxes]
  · have hne : ¬((keep.map (getBox boxes)).length = 0) := by
      simp only [List.length_map, List.length_eq_zero]
      exact hk
    have hsorted : List.Sorted (rankBefore (keep.map (getScore scores)))
        (List.range keep.length) := by
      refine (List.pairwise_lt_range keep.length).imp_of_mem ?_
      intro i j hi hj hij
      have hi2 : i < keep.length := List.mem_range.mp hi
      have hj2 : j < keep.length := List.mem_range.mp hj
      have hr := List.pairwise_iff_getElem.mp hrank i j hi2 hj2 hij
      unfold rankBefore at hr ⊢
      rw [getScore_map scores keep i hi2, getScore_map scores keep j hj2]
      rcases hr with h | ⟨h, _⟩
      · exact Or.inl h
      · exact Or.inr ⟨h, hij.le⟩
    have hpw2 : (List.range keep.length).Pairwise
        (fun u v => iouExceeds (getBox (keep.map (getBox boxes)) u)
          (getBox (keep.map (getBox boxes)) v) t2 = false) := by
      refine (List.pairwise_lt_range keep.length).imp_of_mem ?_
      intro i j hi hj hij
      have hi2 : i < keep.length := List.mem_range.mp hi
      have hj2 : j < keep.length := List.mem_range.mp hj
      have hp := List.pairwise_iff_getElem.mp hpw i j hi2 hj2 hij
      rw [getBox_map boxes keep i hi2, getBox_map boxes keep j hj2]
      exact iouExceeds_false_mono _ _ t t2 ht hp
    unfold nms
    rw [if_neg hne]
    unfold sortedIndices
    rw [List.length_map, hsorted.insertionSort_eq]
    exact outerLoop_id_of_no_suppression _ _ _ _ (fun j hj => rfl) hpw2

/-- The walk always keeps the first sorted index, so a non-empty input
produces a non-empty result headed by an index of maximal score. -/
lemma nms_head_max (boxes : List Box) (scores : List ℚ) (t : ℚ)
    (hne : boxes ≠ []) (hlen : boxes.length = scores.length) :
    nms boxes scores t ≠ [] ∧
    (nms boxes scores t).headD 0 < scores.length ∧
    ∀ i < scores.length,
      getScore scores i ≤ getScore scores ((nms boxes scores t).headD 0) := by
  have hlb : ¬(boxes.length = 0) := by
    simpa [List.length_eq_zero] using hne
  have hn0 : ¬(scores.length = 0) := by
    rw [← hlen]
    exact hlb
  have hlensi : (sortedIndices scores).length = scores.length := by
    rw [(sortedIndices_perm scores).length_eq, List.length_range]
  rcases hsi : sortedIndices scores with _ | ⟨x, l2⟩
  · rw [hsi] at hlensi
    simp at hlensi
    exact absurd hlensi.symm hn0
  · have hnms : nms boxes scores t =
        x :: outerLoop boxes t l2 (innerLoop boxes t x l2 (fun _ => false)) := by
      unfold nms
      rw [if_neg hlb, hsi]
      unfold outerLoop
      rw [if_neg (by simp)]
      cases l2 <;> rfl
    have hxmem : x ∈ List.range scores.length := by
      refine (sortedIndices_perm scores).subset ?_
      rw [hsi]
      exact List.mem_cons_self x l2
    refine ⟨by rw [hnms]; simp, ?_, ?_⟩
    · rw [hnms]
      simpa using List.mem_range.mp hxmem
    · intro i hi
      rw [hnms]
      simp only [List.headD_cons]
      have himem : i ∈ sortedIndices scores :=
        (sortedIndices_perm scores).mem_iff.mpr (List.mem_range.mpr hi)
      rw [hsi] at himem
      rcases List.mem_cons.mp himem with rfl | himem2
      · exact le_refl _
      · have hs := sortedIndices_sorted scores
        rw [hsi, List.sorted_cons] at hs
        rcases hs.1 i himem2 with h | ⟨h, _⟩
        · exact h.le
        · exact h.ge

/-! ### Claim theorems -/

/-- C1 (counterexample): `boxes` of length 2 with `scores` of length 1 is a
length mismatch with both inputs non-empty, yet `nms` returns the non-empty
index list `[0]`: the code only early-returns on `bboxes.rows() == 0` and
otherwise walks the `scores.size()` indices, so a mismatch is not the
claimed empty no-op. -/
theorem nms_length_mismatch_counterexample :
    ([⟨0, 0, 1, 1⟩, ⟨5, 5, 6, 6⟩] : List Box).length ≠
      ([9 / 10] : List ℚ).length ∧
    nms [⟨0, 0, 1, 1⟩, ⟨5, 5, 6, 6⟩] [9 / 10] (1 / 2) = [0] :=
  ⟨by decide, by decide⟩

/-- C1 (amended): `nms` returns an empty sequence whenever either input is
empty (boxes empty hits the early return; scores empty leaves the walk with
no indices); a non-empty length mismatch is not a no-op. -/
theorem nms_empty_input_empty (boxes : List Box) (scores : List ℚ) (t : ℚ)
    (h : boxes = [] ∨ scores = []) : nms boxes scores t = [] := by
  rcases h with rfl | rfl
  · exact nms_nil_boxes scores t
  · exact nms_nil_scores boxes t

/-- Witness for the amended C1 at a concrete empty-boxes input. -/
theorem nms_empty_input_empty_witness :
    (([] : List Box) = [] ∨ ([9 / 10] : List ℚ) = []) ∧
    nms [] [9 / 10] (1 / 2) = [] :=
  ⟨Or.inl rfl, nms_empty_input_empty [] [9 / 10] (1 / 2) (Or.inl rfl)⟩

/-- C2: on boxes `[(10,10,60,60), (15,15,60,60), (100,100,130,130),
(20,20,60,60)]` with scores `[0.9, 0.8, 0.7, 0.6]` and threshold `0.5`,
`nms` returns exactly `[0, 2]`: boxes 1 and 3 are suppressed by box 0
(IoU 0.81 and 0.64), box 2 is disjoint from box 0 and survives. -/
theorem nms_concrete_scenario :
    nms [⟨10, 10, 60, 60⟩, ⟨15, 15, 60, 60⟩, ⟨100, 100, 130, 130⟩,
        ⟨20, 20, 60, 60⟩]
      [9 / 10, 8 / 10, 7 / 10, 6 / 10] (1 / 2) = [0, 2] := by
  decide

/-- C3 (counterexample): raising the threshold can shrink the kept set.
With boxes `A=(4,-20,6,1)`, `B=(0,0,10,10)`, `C=(0,0,4,10)`,
`D=(6,0,10,10)` (scores descending), at threshold `1/100` box `A`
suppresses `B` and the disjoint `C`, `D` survive (3 kept), while at the
larger threshold `7/20` box `B` survives and suppresses both `C` and `D`
(2 kept). -/
theorem nms_threshold_monotonicity_counterexample :
    ((1 : ℚ) / 100 ≤ 7 / 20) ∧
    (nms [⟨4, -20, 6, 1⟩, ⟨0, 0, 10, 10⟩, ⟨0, 0, 4, 10⟩, ⟨6, 0, 10, 10⟩]
      [9 / 10, 8 / 10, 7 / 10, 6 / 10] (1 / 100)).length = 3 ∧
    (nms [⟨4, -20, 6, 1⟩, ⟨0, 0, 10, 10⟩, ⟨0, 0, 4, 10⟩, ⟨6, 0, 10, 10⟩]
      [9 / 10, 8 / 10, 7 / 10, 6 / 10] (7 / 20)).length = 2 :=
  ⟨by decide, by decide, by decide⟩

/-- C3 (amended): the greedy suppression cascade makes the kept-set size
non-monotone in the threshold in general (see the counterexample); for
inputs with at most two boxes, where no cascade is possible, raising the
threshold never shrinks the kept set. -/
theorem nms_threshold_monotone_of_length_le_two (boxes : List Box)
    (scores : List ℚ) (t1 t2 : ℚ) (hlen : boxes.length = scores.length)
    (hn : scores.length ≤ 2) (ht : t1 ≤ t2) :
    (nms boxes scores t1).length ≤ (nms boxes scores t2).length :=
  nms_length_mono_small boxes scores t1 t2 hlen hn ht

/-- Witness for the amended C3 at a concrete two-box input. -/
theorem nms_threshold_monotone_of_length_le_two_witness :
    ([⟨0, 0, 4, 4⟩, ⟨1, 1, 5, 5⟩] : List Box).length =
      ([9 / 10, 8 / 10] : List ℚ).length ∧
    ([9 / 10, 8 / 10] : List ℚ).length ≤ 2 ∧
    ((1 : ℚ) / 4 ≤ 1 / 2) ∧
    (nms [⟨0, 0, 4, 4⟩, ⟨1, 1, 5, 5⟩] [9 / 10, 8 / 10] (1 / 4)).length ≤
      (nms [⟨0, 0, 4, 4⟩, ⟨1, 1, 5, 5⟩] [9 / 10, 8 / 10] (1 / 2)).length :=
  ⟨rfl, by decide, by decide,
    nms_threshold_monotone_of_length_le_two _ _ _ _ rfl (by decide) (by decide)⟩

/-- C4: rerunning `nms` on its own kept output (the kept boxes and scores
taken in the order of `keep`), at any threshold at least the original one,
keeps every index: every pair of kept boxes already has the suppression
test false at the original threshold, and the kept scores are already in
walk order, so the rerun returns `[0, 1, ..., k-1]` unchanged. -/
theorem nms_idempotent_on_kept (boxes : List Box) (scores : List ℚ)
    (t t2 : ℚ) (hlen : boxes.length = scores.length) (ht : t ≤ t2) :
    nms ((nms boxes scores t).map (getBox boxes))
        ((nms boxes scores t).map (getScore scores)) t2 =
      List.range (nms boxes scores t).length :=
  nms_of_kept boxes scores (nms boxes scores t) t t2 ht
    (nms_pairwise_iou boxes scores t) (nms_pairwise_rank boxes scores t)

/-- Witness for C4 at the concrete C2-style input and equal thresholds. -/
theorem nms_idempotent_on_kept_witness :
    ([⟨10, 10, 60, 60⟩, ⟨15, 15, 60, 60⟩, ⟨100, 100, 130, 130⟩,
        ⟨20, 20, 60, 60⟩] : List Box).length =
      ([9 / 10, 8 / 10, 7 / 10, 6 / 10] : List ℚ).length ∧
    ((1 : ℚ) / 2 ≤ 1 / 2) ∧
    nms ((nms [⟨10, 10, 60, 60⟩, ⟨15, 15, 60, 60⟩, ⟨100, 100, 130, 130⟩,
            ⟨20, 20, 60, 60⟩] [9 / 10, 8 / 10, 7 / 10, 6 / 10] (1 / 2)).map
          (getBox [⟨10, 10, 60, 60⟩, ⟨15, 15, 60, 60⟩, ⟨100, 100, 130, 130⟩,
            ⟨20, 20, 60, 60⟩]))
        ((nms [⟨10, 10, 60, 60⟩, ⟨15, 15, 60, 60⟩, ⟨100, 100, 130, 130⟩,
            ⟨20, 20, 60, 60⟩] [9 / 10, 8 / 10, 7 / 10, 6 / 10] (1 / 2)).map
          (getScore [9 / 10, 8 / 10, 7 / 10, 6 / 10])) (1 / 2) =
      List.range (nms [⟨10, 10, 60, 60⟩, ⟨15, 15, 60, 60⟩,
        ⟨100, 100, 130, 130⟩, ⟨20, 20, 60, 60⟩]
        [9 / 10, 8 / 10, 7 / 10, 6 / 10] (1 / 2)).length :=
  ⟨rfl, by decide,
    nms_idempotent_on_kept _ _ (1 / 2) (1 / 2) rfl (le_refl _)⟩

/-- C5: for equal-length inputs the result is a duplicate-free list of
indices below `n`, listed in descending-score order of the survivors
(each later kept index has a score at most that of each earlier one). -/
theorem nms_result_nodup_bounded_sorted (boxes : List Box) (scores : List ℚ)
    (t : ℚ) (hlen : boxes.length = scores.length) :
    (nms boxes scores t).Nodup ∧
    (∀ i ∈ nms boxes scores t, i < scores.length) ∧
    (nms boxes scores t).Pairwise
      (fun i j => getScore scores j ≤ getScore scores i) := by
  refine ⟨nms_nodup boxes scores t, nms_mem_lt boxes scores t, ?_⟩
  refine List.Pairwise.imp ?_ (nms_pairwise_rank boxes scores t)
  intro i j h
  rcases h with h | ⟨h, _⟩
  · exact h.le
  · exact h.ge

/-- Witness for C5 at the concrete C2-style input. -/
theorem nms_result_nodup_bounded_sorted_witness :
    ([⟨10, 10, 60, 60⟩, ⟨15, 15, 60, 60⟩, ⟨100, 100, 130, 130⟩,
        ⟨20, 20, 60, 60⟩] : List Box).length =
      ([9 / 10, 8 / 10, 7 / 10, 6 / 10] : List ℚ).length ∧
    ((nms [⟨10, 10, 60, 60⟩, ⟨15, 15, 60, 60⟩, ⟨100, 100, 130, 130⟩,
        ⟨20, 20, 60, 60⟩] [9 / 10, 8 / 10, 7 / 10, 6 / 10] (1 / 2)).Nodup ∧
      (∀ i ∈ nms [⟨10, 10, 60, 60⟩, ⟨15, 15, 60, 60⟩, ⟨100, 100, 130, 130⟩,
          ⟨20, 20, 60, 60⟩] [9 / 10, 8 / 10, 7 / 10, 6 / 10] (1 / 2),
        i < ([9 / 10, 8 / 10, 7 / 10, 6 / 10] : List ℚ).length) ∧
      (nms [⟨10, 10, 60, 60⟩, ⟨15, 15, 60, 60⟩, ⟨100, 100, 130, 130⟩,
          ⟨20, 20, 60, 60⟩] [9 / 10, 8 / 10, 7 / 10, 6 / 10] (1 / 2)).Pairwise
        (fun i j => getScore [9 / 10, 8 / 10, 7 / 10, 6 / 10] j ≤
          getScore [9 / 10, 8 / 10, 7 / 10, 6 / 10] i)) :=
  ⟨rfl, nms_result_nodup_bounded_sorted _ _ (1 / 2) rfl⟩

/-- C6: during the inner walk for a kept box `idx`, a not-yet-suppressed
later box `k` whose union area with `idx` is non-zero ends the pass
suppressed iff its IoU with `idx` is strictly greater than the threshold;
in particular a pair whose IoU equals the threshold exactly is never
suppressed by that pass. -/
theorem nms_suppression_strict_iff (boxes : List Box) (t : ℚ) (idx k : ℕ)
    (l : List ℕ) (sup : ℕ → Bool) (hsup : sup k = false) (hk : k ∈ l)
    (hu : unionArea (getBox boxes idx) (getBox boxes k) ≠ 0) :
    (innerLoop boxes t idx l sup k = true ↔
      t < interArea (getBox boxes idx) (getBox boxes k) /
        unionArea (getBox boxes idx) (getBox boxes k)) ∧
    (interArea (getBox boxes idx) (getBox boxes k) /
        unionArea (getBox boxes idx) (getBox boxes k) = t →
      innerLoop boxes t idx l sup k = false) := by
  have hiff : innerLoop boxes t idx l sup k = true ↔
      t < interArea (getBox boxes idx) (getBox boxes k) /
        unionArea (getBox boxes idx) (getBox boxes k) := by
    rw [innerLoop_apply]
    simp [hsup, hk, iouExceeds, hu]
  refine ⟨hiff, fun he => ?_⟩
  cases hres : innerLoop boxes t idx l sup k
  · rfl
  · have h2 := hiff.mp hres
    rw [he] at h2
    exact absurd h2 (lt_irrefl t)

/-- Witness for C6: boxes `(0,0,2,2)` and `(1,1,3,3)` overlap with
IoU `1/7`, which exceeds the threshold `1/10`, so the second is marked. -/
theorem nms_suppression_strict_iff_witness :
    ((fun _ => false : ℕ → Bool) 1 = false) ∧ (1 ∈ [1]) ∧
    unionArea (getBox [⟨0, 0, 2, 2⟩, ⟨1, 1, 3, 3⟩] 0)
      (getBox [⟨0, 0, 2, 2⟩, ⟨1, 1, 3, 3⟩] 1) ≠ 0 ∧
    ((innerLoop [⟨0, 0, 2, 2⟩, ⟨1, 1, 3, 3⟩] (1 / 10) 0 [1]
        (fun _ => false) 1 = true ↔
      (1 : ℚ) / 10 < interArea (getBox [⟨0, 0, 2, 2⟩, ⟨1, 1, 3, 3⟩] 0)
          (getBox [⟨0, 0, 2, 2⟩, ⟨1, 1, 3, 3⟩] 1) /
        unionArea (getBox [⟨0, 0, 2, 2⟩, ⟨1, 1, 3, 3⟩] 0)
          (getBox [⟨0, 0, 2, 2⟩, ⟨1, 1, 3, 3⟩] 1)) ∧
    (interArea (getBox [⟨0, 0, 2, 2⟩, ⟨1, 1, 3, 3⟩] 0)
          (getBox [⟨0, 0, 2, 2⟩, ⟨1, 1, 3, 3⟩] 1) /
        unionArea (getBox [⟨0, 0, 2, 2⟩, ⟨1, 1, 3, 3⟩] 0)
          (getBox [⟨0, 0, 2, 2⟩, ⟨1, 1, 3, 3⟩] 1) = 1 / 10 →
      innerLoop [⟨0, 0, 2, 2⟩, ⟨1, 1, 3, 3⟩] (1 / 10) 0 [1]
        (fun _ => false) 1 = false)) :=
  ⟨rfl, by decide, by decide,
    nms_suppression_strict_iff _ _ 0 1 [1] _ rfl (by decide) (by decide)⟩

/-- C7: when the union area of two boxes is zero the `0/0` quotient is NaN
in the C++ code and the comparison against any threshold is false, which
the embedding encodes as a false suppression decision: the lower-ranked box
is never suppressed by the higher-ranked one, for every threshold, and the
walk's flags stay well-defined Booleans (no NaN/Inf reaches the result). -/
theorem nms_zero_union_not_suppressed (boxes : List Box) (t : ℚ)
    (idx k : ℕ) (l : List ℕ) (sup : ℕ → Bool)
    (hu : unionArea (getBox boxes idx) (getBox boxes k) = 0)
    (hsup : sup k = false) :
    iouExceeds (getBox boxes idx) (getBox boxes k) t = false ∧
    innerLoop boxes t idx l sup k = false := by
  have h1 := iouExceeds_false_of_unionArea_eq_zero (getBox boxes idx)
    (getBox boxes k) t hu
  refine ⟨h1, ?_⟩
  rw [innerLoop_apply]
  simp [hsup, h1]

/-- Witness for C7: two disjoint zero-area boxes, at a negative threshold. -/
theorem nms_zero_union_not_suppressed_witness :
    unionArea (getBox [⟨0, 0, 0, 0⟩, ⟨1, 1, 1, 1⟩] 0)
      (getBox [⟨0, 0, 0, 0⟩, ⟨1, 1, 1, 1⟩] 1) = 0 ∧
    ((fun _ => false : ℕ → Bool) 1 = false) ∧
    (iouExceeds (getBox [⟨0, 0, 0, 0⟩, ⟨1, 1, 1, 1⟩] 0)
        (getBox [⟨0, 0, 0, 0⟩, ⟨1, 1, 1, 1⟩] 1) (-5) = false ∧
      innerLoop [⟨0, 0, 0, 0⟩, ⟨1, 1, 1, 1⟩] (-5) 0 [1]
        (fun _ => false) 1 = false) :=
  ⟨by decide, rfl,
    nms_zero_union_not_suppressed _ (-5) 0 1 [1] _ (by decide) rfl⟩

/-- C8 (counterexample): two disjoint boxes, but a negative threshold: the
computed IoU is `0` and `0 > -1` holds, so the code suppresses the
lower-scored box — the claim fails for thresholds below zero. -/
theorem nms_disjoint_negative_threshold_counterexample :
    interArea ⟨0, 0, 1, 1⟩ ⟨2, 2, 3, 3⟩ = 0 ∧
    nms [⟨0, 0, 1, 1⟩, ⟨2, 2, 3, 3⟩] [9 / 10, 8 / 10] (-1) = [0] :=
  ⟨by decide, by decide⟩

/-- C8 (amended): for every two boxes with zero intersection area and any
two scores, `nms` keeps both boxes for every non-negative threshold (the
result is the pair of indices in score order). -/
theorem nms_disjoint_pair_kept (b1 b2 : Box) (s1 s2 : ℚ) (t : ℚ)
    (hinter : interArea b1 b2 = 0) (ht : 0 ≤ t) :
    List.Perm (nms [b1, b2] [s1, s2] t) [0, 1] := by
  have h12 : iouExceeds (getBox [b1, b2] 0) (getBox [b1, b2] 1) t = false :=
    iouExceeds_false_of_interArea_eq_zero b1 b2 t hinter ht
  have h21 : iouExceeds (getBox [b1, b2] 1) (getBox [b1, b2] 0) t = false :=
    iouExceeds_false_of_interArea_eq_zero b2 b1 t
      ((interArea_comm b2 b1).trans hinter) ht
  have hs := sortedIndices_pair s1 s2
  by_cases h : rankBefore [s1, s2] 0 1
  · rw [if_pos h] at hs
    rw [nms_pair b1 b2 s1 s2 t 0 1 hs, if_neg (by simp [h12])]
  · rw [if_neg h] at hs
    rw [nms_pair b1 b2 s1 s2 t 1 0 hs, if_neg (by simp [h21])]
    exact List.Perm.swap 0 1 []

/-- Witness for the amended C8 at concrete disjoint boxes. -/
theorem nms_disjoint_pair_kept_witness :
    interArea ⟨0, 0, 1, 1⟩ ⟨2, 2, 3, 3⟩ = 0 ∧ ((0 : ℚ) ≤ 1 / 2) ∧
    List.Perm (nms [⟨0, 0, 1, 1⟩, ⟨2, 2, 3, 3⟩] [9 / 10, 8 / 10] (1 / 2))
      [0, 1] :=
  ⟨by decide, by decide,
    nms_disjoint_pair_kept ⟨0, 0, 1, 1⟩ ⟨2, 2, 3, 3⟩ (9 / 10) (8 / 10)
      (1 / 2) (by decide) (by decide)⟩

/-- C9: for non-empty equal-length inputs the result is non-empty and its
first element is an in-range index whose score is at least every input
score — a highest-scoring box is always kept and reported first. -/
theorem nms_head_is_max_score (boxes : List Box) (scores : List ℚ) (t : ℚ)
    (hne : boxes ≠ []) (hlen : boxes.length = scores.length) :
    nms boxes scores t ≠ [] ∧
    (nms boxes scores t).headD 0 < scores.length ∧
    ∀ i < scores.length,
      getScore scores i ≤ getScore scores ((nms boxes scores t).headD 0) :=
  nms_head_max boxes scores t hne hlen

/-- Witness for C9 at the concrete C2-style input. -/
theorem nms_head_is_max_score_witness :
    ([⟨10, 10, 60, 60⟩, ⟨15, 15, 60, 60⟩, ⟨100, 100, 130, 130⟩,
        ⟨20, 20, 60, 60⟩] : List Box) ≠ [] ∧
    ([⟨10, 10, 60, 60⟩, ⟨15, 15, 60, 60⟩, ⟨100, 100, 130, 130⟩,
        ⟨20, 20, 60, 60⟩] : List Box).length =
      ([9 / 10, 8 / 10, 7 / 10, 6 / 10] : List ℚ).length ∧
    (nms [⟨10, 10, 60, 60⟩, ⟨15, 15, 60, 60⟩, ⟨100, 100, 130, 130⟩,
        ⟨20, 20, 60, 60⟩] [9 / 10, 8 / 10, 7 / 10, 6 / 10] (1 / 2) ≠ [] ∧
      (nms [⟨10, 10, 60, 60⟩, ⟨15, 15, 60, 60⟩, ⟨100, 100, 130, 130⟩,
        ⟨20, 20, 60, 60⟩] [9 / 10, 8 / 10, 7 / 10, 6 / 10] (1 / 2)).headD 0 <
        ([9 / 10, 8 / 10, 7 / 10, 6 / 10] : List ℚ).length ∧
      ∀ i < ([9 / 10, 8 / 10, 7 / 10, 6 / 10] : List ℚ).length,
        getScore [9 / 10, 8 / 10, 7 / 10, 6 / 10] i ≤
          getScore [9 / 10, 8 / 10, 7 / 10, 6 / 10]
            ((nms [⟨10, 10, 60, 60⟩, ⟨15, 15, 60, 60⟩, ⟨100, 100, 130, 130⟩,
              ⟨20, 20, 60, 60⟩] [9 / 10, 8 / 10, 7 / 10, 6 / 10]
              (1 / 2)).headD 0)) :=
  ⟨by decide, rfl, nms_head_is_max_score _ _ (1 / 2) (by decide) rfl⟩

/-- C10: pixel inversion preserves length, maps each 8-bit pixel `p` to
`255 - p`, and is an involution on vectors of 8-bit pixels. -/
theorem invert_involution (pixels : List ℕ) (h : ∀ p ∈ pixels, p < 256) :
    (invert pixels).length = pixels.length ∧
    invert pixels = pixels.map (fun p => 255 - p) ∧
    invert (invert pixels) = pixels := by
  refine ⟨List.length_map _ _, rfl, ?_⟩
  unfold invert
  rw [List.map_map]
  have h2 : pixels.map ((fun p => 255 - p) ∘ fun p => 255 - p) =
      pixels.map id := by
    apply List.map_congr_left
    intro p hp
    have hp2 := h p hp
    simp only [Function.comp_apply, id_eq]
    omega
  rw [h2, List.map_id]

/-- Witness for C10 at a concrete pixel vector. -/
theorem invert_involution_witness :
    (∀ p ∈ [0, 17, 255], p < 256) ∧
    ((invert [0, 17, 255]).length = ([0, 17, 255] : List ℕ).length ∧
      invert [0, 17, 255] = ([0, 17, 255] : List ℕ).map (fun p => 255 - p) ∧
      invert (invert [0, 17, 255]) = [0, 17, 255]) :=
  ⟨by decide, invert_involution [0, 17, 255] (by decide)⟩

end NextCV
